import Mathlib

/-!
Verification of `scripts/compare_results.py`.

Modelling conventions for the shallow embedding:

* Python `float` values are embedded as exact rationals (`ℚ`); all numeric
  literals appearing in the script (`123.0`, thresholds `1.0`/`2.0`/`5.0`,
  unit factors) are exactly representable, and the claims under study are
  about exact threshold comparisons, so the rational model is faithful.
* Text is modelled at the level of ASCII: `str.strip`, `str.lower`, the
  regex character classes `\s`, `\d`, `\w` are embedded with their ASCII
  meaning (the benchmark files the script consumes are ASCII apart from the
  micro sign `µ`, which is untouched by ASCII lowering, exactly as CPython's
  `str.lower` leaves it unchanged).
* The three regular expressions of the script are hand-compiled to
  deterministic parsing functions.  Each compilation step is justified in a
  comment by a backtracking analysis of the original pattern (lazy `\S+?`,
  greedy `\d+`/`[\d.]+`/`\w+` runs whose followers are disjoint character
  classes, optional groups).
* Python `dict` is embedded as an association list with Python's update
  semantics (`dictInsert` overwrites in place, else appends); exceptions
  (`float` raising `ValueError`) are embedded with `Except`.
-/

/-! ### ASCII character primitives -/

/-- Unfolding of `Char.toLower`. -/
theorem charToLower_eq (c : Char) :
    c.toLower = if 65 ≤ c.toNat ∧ c.toNat ≤ 90 then Char.ofNat (c.toNat + 32) else c := by
  simp only [Char.toLower, ge_iff_le]

/-- ASCII lowering is idempotent. -/
theorem charToLower_idem (c : Char) : c.toLower.toLower = c.toLower := by
  rw [charToLower_eq c]
  by_cases h : 65 ≤ c.toNat ∧ c.toNat ≤ 90
  · rw [if_pos h]
    obtain ⟨h1, h2⟩ := h
    set n := c.toNat with hn
    interval_cases n <;> decide
  · rw [if_neg h, charToLower_eq c, if_neg h]

/-- ASCII lowering never yields the upper-case letter `B`. -/
theorem charToLower_ne_B (c : Char) : c.toLower ≠ 'B' := by
  rw [charToLower_eq c]
  by_cases h : 65 ≤ c.toNat ∧ c.toNat ≤ 90
  · rw [if_pos h]
    obtain ⟨h1, h2⟩ := h
    set n := c.toNat with hn
    interval_cases n <;> decide
  · rw [if_neg h]
    intro hc
    subst hc
    simp at h

/-- ASCII lowering maps non-underscores to non-underscores. -/
theorem charToLower_ne_underscore (c : Char) (h : c ≠ '_') : c.toLower ≠ '_' := by
  rw [charToLower_eq c]
  by_cases hc : 65 ≤ c.toNat ∧ c.toNat ≤ 90
  · rw [if_pos hc]
    obtain ⟨h1, h2⟩ := hc
    set n := c.toNat with hn
    interval_cases n <;> decide
  · rwa [if_neg hc]

/-- ASCII lowering maps non-slashes to non-slashes. -/
theorem charToLower_ne_slash (c : Char) (h : c ≠ '/') : c.toLower ≠ '/' := by
  rw [charToLower_eq c]
  by_cases hc : 65 ≤ c.toNat ∧ c.toNat ≤ 90
  · rw [if_pos hc]
    obtain ⟨h1, h2⟩ := hc
    set n := c.toNat with hn
    interval_cases n <;> decide
  · rwa [if_neg hc]

/-! ### `normalize_name` (`compare_results.py`, lines 31–43) -/

/-- `re.sub(r'^X', '', name)` for a literal pattern `X`: with the `^` anchor
and no MULTILINE flag the substitution fires at most once, at the start of
the string, so it is exactly "drop the prefix when present". -/
def stripPrefixSub (pre s : List Char) : List Char :=
  if pre.isPrefixOf s then s.drop pre.length else s

/-- `re.sub(r'-\d+$', '', name)`: the leftmost (hence unique) match of
`-\d+$` is the maximal trailing run of digits together with the `-` right
before it, provided the run is nonempty and the `-` is there; only that one
occurrence is removed (`re.sub` does not iterate on its own output). -/
def stripTrailingDashDigits (s : List Char) : List Char :=
  let r := s.reverse
  let ds := r.takeWhile (fun c => c.isDigit)
  if ds ≠ [] ∧ (r.drop ds.length).head? = some '-' then
    (r.drop (ds.length + 1)).reverse
  else s

/-- Body of `normalize_name` on character lists: drop a leading
`Benchmark`, then a leading `bench_`, remove every `_` and `/`, lower-case,
and strip one trailing `-<digits>` group. -/
def normChars (l : List Char) : List Char :=
  stripTrailingDashDigits
    ((((stripPrefixSub "bench_".data (stripPrefixSub "Benchmark".data l)).filter
          (fun c => c != '_')).filter (fun c => c != '/')).map Char.toLower)

/-- `normalize_name` (source lines 31–43). -/
def normalize_name (s : String) : String := ⟨normChars s.data⟩

example : normalize_name "BenchmarkFoo-8" = "foo" := by decide
example : normalize_name "render_foo" = "renderfoo" := by decide
example : normalize_name "a-1-2" = "a-1" := by decide
example : normalize_name "bench_a/b" = "ab" := by decide

/-! ### Data model (`BenchResult`, lines 21–28) and `dict` embedding -/

/-- `BenchResult` (source lines 21–28); `ns_per_op` is a Python float,
embedded as an exact rational. -/
structure BenchResult where
  name : String
  ns_per_op : ℚ
  bytes_per_op : Option Int := none
  allocs_per_op : Option Int := none
  source : String := ""
deriving DecidableEq, Repr

/-- A Python `dict[str, BenchResult]` as an insertion-ordered association
list. -/
abbrev Dict := List (String × BenchResult)

/-- `d.get(k)` / `d[k]` read access. -/
def dictGet (d : Dict) (k : String) : Option BenchResult :=
  (d.find? (fun p => p.1 == k)).map Prod.snd

/-- Python `d[k] = v`: overwrite in place when the key exists, else append
at the end (insertion order). -/
def dictInsert (d : Dict) (k : String) (v : BenchResult) : Dict :=
  if d.any (fun p => p.1 == k) then
    d.map (fun p => if p.1 == k then (k, v) else p)
  else d ++ [(k, v)]

/-- Reading back the key just written returns the value just written. -/
theorem dictGet_dictInsert_self (d : Dict) (k : String) (v : BenchResult) :
    dictGet (dictInsert d k v) k = some v := by
  unfold dictInsert
  by_cases h : d.any (fun p => p.1 == k)
  · rw [if_pos h]
    induction d with
    | nil => simp at h
    | cons p rest ih =>
      by_cases hp : p.1 == k
      · unfold dictGet
        simp [List.find?, hp]
      · simp only [List.any_cons, hp, Bool.false_or] at h
        unfold dictGet at ih ⊢
        simpa [List.find?, hp] using ih h
  · rw [if_neg h]
    unfold dictGet
    induction d with
    | nil => simp [List.find?]
    | cons p rest ih =>
      simp only [List.any_cons, Bool.or_eq_true] at h
      push_neg at h
      simpa [List.find?, h.1] using ih h.2

/-- A key is retrievable exactly when it occurs among the stored keys. -/
theorem dictGet_isSome_iff (d : Dict) (k : String) :
    (dictGet d k).isSome ↔ k ∈ d.map Prod.fst := by
  unfold dictGet
  rw [show ∀ o : Option (String × BenchResult), (o.map Prod.snd).isSome = o.isSome from
    fun o => by cases o <;> rfl]
  rw [List.find?_isSome]
  constructor
  · rintro ⟨x, hx, hpx⟩
    exact List.mem_map.mpr ⟨x, hx, (beq_iff_eq.mp hpx).symm ▸ rfl⟩
  · intro hk
    obtain ⟨x, hx, hxk⟩ := List.mem_map.mp hk
    exact ⟨x, hx, beq_iff_eq.mpr hxk⟩

/-! ### Character-class helpers for the hand-compiled regexes -/

/-- `\S` (ASCII). -/
def isNonSpace (c : Char) : Bool := !c.isWhitespace

/-- The class `[\d.]`. -/
def nsChar (c : Char) : Bool := c.isDigit || c == '.'

/-- `\w` (ASCII): letters, digits and underscore. -/
def isWordChar (c : Char) : Bool := c.isAlphanum || c == '_'

/-- Python `str.strip()` (ASCII whitespace). -/
def pyStrip (s : List Char) : List Char :=
  ((s.dropWhile Char.isWhitespace).reverse.dropWhile Char.isWhitespace).reverse

/-- Consume a literal, or fail. -/
def dropLiteral (lit s : List Char) : Option (List Char) :=
  if lit.isPrefixOf s then some (s.drop lit.length) else none

/-- Digit string to number (all inputs are produced by `takeWhile isDigit`). -/
def digitsToNat (l : List Char) : Nat := l.foldl (fun a c => a * 10 + (c.toNat - 48)) 0

/-- Python `float` applied to a string drawn from `[\d.]+`: defined exactly
when the token has at most one dot and at least one digit (otherwise
CPython raises `ValueError`, e.g. on `"1.2.3"` or `"."`). -/
def floatOfTok (t : List Char) : Option ℚ :=
  if t.count '.' ≤ 1 ∧ t.any Char.isDigit then
    let ip := t.takeWhile (fun c => c != '.')
    let fp := (t.drop ip.length).drop 1
    some ((digitsToNat ip : ℚ) + (digitsToNat fp : ℚ) / (10 : ℚ) ^ fp.length)
  else none

example : floatOfTok "123.0".data = some 123 := by
  have h1 : digitsToNat ['1', '2', '3'] = 123 := by decide
  have h2 : digitsToNat ['0'] = 0 := by decide
  simp +decide [floatOfTok]
  norm_num [h1, h2]

example : floatOfTok "1.2.3".data = none := by decide
example : floatOfTok ".".data = none := by decide

/-! ### `parse_go_bench` (lines 46–76)

The pattern (matched with `re.match`, i.e. anchored at the start only)
```
^Benchmark(\S+?)(?:-\d+)?\s+(\d+)\s+([\d.]+)\s+ns/op(?:\s+(\d+)\s+B/op)?(?:\s+(\d+)\s+allocs/op)?
```
is compiled as follows.  Write `T` for the maximal `\S` run after the
literal `Benchmark`.  The lazy `\S+?` together with the greedy optional
`(?:-\d+)?` must consume exactly `T` (the following `\s+` can only start at
the first whitespace), so group 1 is `T.take i` for the least `i ≥ 1` such
that `T.drop i` is empty or is `-` followed by one or more digits
(`splitGoName`).  Every later greedy run (`\d+`, `[\d.]+`, the `\s+`
separators, and those inside the optional groups) is followed by a
character class disjoint from its own, so backtracking can never shorten
it: each run is the maximal one and the next character must be in the
follower class.  The pattern has no `$`, so trailing junk is ignored. -/

/-- `rest` is `-` followed by one or more digits (the `(?:-\d+)?` suffix
group consuming to the end of the name token). -/
def isDashDigits (l : List Char) : Bool :=
  match l with
  | '-' :: rest => !rest.isEmpty && rest.all Char.isDigit
  | _ => false

/-- Scan for the least split of the name token (lazy `\S+?`); `acc` holds
the reversed candidate group 1, never empty. -/
def splitGoNameAux : List Char → List Char → List Char
  | acc, [] => acc.reverse
  | acc, c :: rest =>
    if isDashDigits (c :: rest) then acc.reverse
    else splitGoNameAux (c :: acc) rest

/-- Group 1 of the Go pattern applied to the name token `T`. -/
def splitGoName (T : List Char) : List Char :=
  match T with
  | [] => []
  | c :: rest => splitGoNameAux [c] rest

/-- The captured groups of the Go benchmark pattern. -/
structure GoMatch where
  name : List Char
  iters : List Char
  nsTok : List Char
  bytesTok : Option (List Char)
  allocsTok : Option (List Char)
deriving DecidableEq, Repr

/-- One optional counter group `(?:\s+(\d+)\s+LIT)?`: greedy, consuming
nothing when any of its parts fails. -/
def parseOptCounter (lit s : List Char) : Option (List Char) × List Char :=
  match s with
  | [] => (none, s)
  | c :: _ =>
    if !c.isWhitespace then (none, s)
    else
      let r1 := s.dropWhile Char.isWhitespace
      let d := r1.takeWhile Char.isDigit
      let r2 := r1.drop d.length
      if d.isEmpty then (none, s)
      else
        match r2 with
        | [] => (none, s)
        | c2 :: _ =>
          if !c2.isWhitespace then (none, s)
          else
            match dropLiteral lit (r2.dropWhile Char.isWhitespace) with
            | none => (none, s)
            | some r4 => (some d, r4)

/-- The Go benchmark pattern, anchored at the start of the (stripped)
line. -/
def parseGoLine (cs : List Char) : Option GoMatch :=
  match dropLiteral "Benchmark".data cs with
  | none => none
  | some r1 =>
    let T := r1.takeWhile isNonSpace
    let r2 := r1.drop T.length
    if T.isEmpty then none
    else
      match r2 with
      | [] => none
      | _ :: _ =>
        let r3 := r2.dropWhile Char.isWhitespace
        let iters := r3.takeWhile Char.isDigit
        let r4 := r3.drop iters.length
        if iters.isEmpty then none
        else if !(r4.head?.elim false Char.isWhitespace) then none
        else
          let r5 := r4.dropWhile Char.isWhitespace
          let ns := r5.takeWhile nsChar
          let r6 := r5.drop ns.length
          if ns.isEmpty then none
          else if !(r6.head?.elim false Char.isWhitespace) then none
          else
            match dropLiteral "ns/op".data (r6.dropWhile Char.isWhitespace) with
            | none => none
            | some r8 =>
              let pb := parseOptCounter "B/op".data r8
              let pa := parseOptCounter "allocs/op".data pb.2
              some ⟨splitGoName T, iters, ns, pb.1, pa.1⟩

/-- Processing of one line of the Go file (loop body, lines 60–74); a
failing `float` propagates as an exception. -/
def goLineStep (d : Dict) (line : String) : Except String Dict :=
  match parseGoLine (pyStrip line.data) with
  | none => .ok d
  | some m =>
    match floatOfTok m.nsTok with
    | none => .error "ValueError"
    | some ns =>
      .ok (dictInsert d (normalize_name ⟨m.name⟩)
        { name := "Benchmark" ++ String.mk m.name
          ns_per_op := ns
          bytes_per_op := m.bytesTok.map (fun t => (digitsToNat t : Int))
          allocs_per_op := m.allocsTok.map (fun t => (digitsToNat t : Int))
          source := "go" })

/-- `parse_go_bench` (lines 46–76) on the list of lines of the file. -/
def parse_go_bench (lines : List String) : Except String Dict :=
  lines.foldl (fun acc line => acc.bind (fun d => goLineStep d line)) (.ok [])

example : parseGoLine "BenchmarkFoo-8    1000000    123.0 ns/op    16 B/op    1 allocs/op".data =
    some ⟨"Foo".data, "1000000".data, "123.0".data, some "16".data, some "1".data⟩ := by decide
example : parseGoLine "BenchmarkFoo-8".data = none := by decide
example : parseGoLine "not a benchmark".data = none := by decide
example : parseGoLine "BenchmarkX 1 1.2.3 ns/op".data =
    some ⟨"X".data, "1".data, "1.2.3".data, none, none⟩ := by decide

/-! ### `convert_to_ns` (lines 145–158) -/

/-- ASCII `str.lower`. -/
def strLower (s : String) : String := ⟨s.data.map Char.toLower⟩

/-- `convert_to_ns` (lines 145–158): lowers the unit token, then a fixed
chain of unit tables with a fall-through returning the value unchanged. -/
def convert_to_ns (value : ℚ) (unit : String) : ℚ :=
  let u := strLower unit
  if u = "ns" ∨ u = "nanoseconds" then value
  else if u = "µs" ∨ u = "us" ∨ u = "microseconds" then value * 1000
  else if u = "ms" ∨ u = "milliseconds" then value * 1000000
  else if u = "s" ∨ u = "seconds" then value * 1000000000
  else value

/-! ### `parse_rust_bench` (lines 79–142)

Three patterns are involved.

* `name_pattern = ^(\S+/\S+)\s*$|^(\S+)\s+time:` (with `re.match`).  The
  first alternative forces the whole line to be a single `\S` token (only
  whitespace after it) containing a `/` at an interior position (at least
  one `\S` before and after it); the group is then the whole token.  The
  second alternative captures the leading token, requires at least one
  whitespace and then the literal `time:`.  In both cases the group is
  exactly the leading maximal `\S` run of the line.
* `time_pattern = time:\s+\[([\d.]+)\s+(\w+)\s+([\d.]+)\s+(\w+)\s+([\d.]+)\s+(\w+)\]`
  used with `.search`: tried at each start position from the left.  All
  greedy runs are followed by disjoint classes (`\s` after `[\d.]+` and
  after `\w+` separators, the literals `[` and `]`), so each is the maximal
  run and the follower is mandatory.
* `simple_pattern = ^(\S+)\s+time:\s+\[([\d.]+)\s+(\w+)` with `re.match`:
  a prefix of the full interval pattern with a leading name token. -/

/-- The name pattern: both alternatives capture the leading `\S` token. -/
def parseRustName (cs : List Char) : Option (List Char) :=
  let T := cs.takeWhile isNonSpace
  let rest := cs.drop T.length
  if !T.isEmpty && rest.all Char.isWhitespace && (T.drop 1).dropLast.contains '/' then
    some T
  else
    match rest with
    | [] => none
    | _ :: _ =>
      if !T.isEmpty && "time:".data.isPrefixOf (rest.dropWhile Char.isWhitespace) then
        some T
      else none

/-- The six captured groups of `time_pattern`. -/
structure TripleMatch where
  v1 : List Char
  u1 : List Char
  v2 : List Char
  u2 : List Char
  v3 : List Char
  u3 : List Char
deriving DecidableEq, Repr

/-- One `([\d.]+)\s+(\w+)` pair followed by mandatory whitespace handling:
returns the value token, the unit token, and the rest after the unit. -/
def parseValueUnit (s : List Char) : Option (List Char × List Char × List Char) :=
  let v := s.takeWhile nsChar
  let r1 := s.drop v.length
  if v.isEmpty then none
  else if !(r1.head?.elim false Char.isWhitespace) then none
  else
    let r2 := r1.dropWhile Char.isWhitespace
    let u := r2.takeWhile isWordChar
    if u.isEmpty then none
    else some (v, u, r2.drop u.length)

/-- `time_pattern` attempted at one fixed start position. -/
def matchTripleAt (cs : List Char) : Option TripleMatch :=
  match dropLiteral "time:".data cs with
  | none => none
  | some r1 =>
    match r1 with
    | [] => none
    | c :: _ =>
      if !c.isWhitespace then none
      else
        match dropLiteral "[".data (r1.dropWhile Char.isWhitespace) with
        | none => none
        | some r3 =>
          match parseValueUnit r3 with
          | none => none
          | some (v1, u1, r4) =>
            match r4 with
            | [] => none
            | c4 :: _ =>
              if !c4.isWhitespace then none
              else
                match parseValueUnit (r4.dropWhile Char.isWhitespace) with
                | none => none
                | some (v2, u2, r5) =>
                  match r5 with
                  | [] => none
                  | c5 :: _ =>
                    if !c5.isWhitespace then none
                    else
                      match parseValueUnit (r5.dropWhile Char.isWhitespace) with
                      | none => none
                      | some (v3, u3, r6) =>
                        match dropLiteral "]".data r6 with
                        | none => none
                        | some _ => some ⟨v1, u1, v2, u2, v3, u3⟩

/-- `time_pattern.search`: leftmost start position at which the pattern
matches. -/
def timeSearch : List Char → Option TripleMatch
  | [] => none
  | c :: rest =>
    match matchTripleAt (c :: rest) with
    | some t => some t
    | none => timeSearch rest

/-- `simple_pattern` (anchored): leading token, `time:`, `[`, first value
and unit. -/
def matchSimple (cs : List Char) : Option (List Char × List Char × List Char) :=
  let T := cs.takeWhile isNonSpace
  let rest := cs.drop T.length
  if T.isEmpty then none
  else
    match rest with
    | [] => none
    | _ :: _ =>
      match dropLiteral "time:".data (rest.dropWhile Char.isWhitespace) with
      | none => none
      | some r2 =>
        match r2 with
        | [] => none
        | c2 :: _ =>
          if !c2.isWhitespace then none
          else
            match dropLiteral "[".data (r2.dropWhile Char.isWhitespace) with
            | none => none
            | some r4 =>
              let v := r4.takeWhile nsChar
              let r5 := r4.drop v.length
              if v.isEmpty then none
              else if !(r5.head?.elim false Char.isWhitespace) then none
              else
                let u := (r5.dropWhile Char.isWhitespace).takeWhile isWordChar
                if u.isEmpty then none
                else some (T, v, u)

/-- `current_name.replace('/', '_')`. -/
def slashToUnderscore (l : List Char) : List Char :=
  l.map (fun c => if c = '/' then '_' else c)

/-- Parser state of the Rust loop: the accumulated dict and the pending
`current_name`. -/
structure RState where
  results : Dict
  current_name : Option (List Char)
deriving DecidableEq, Repr

/-- The `time_match`/`current_name` branch (lines 111–125). -/
def timeStage (results : Dict) (cur : Option (List Char)) (cs : List Char) :
    Except String (Dict × Option (List Char)) :=
  match timeSearch cs, cur with
  | some t, some cn =>
    match floatOfTok t.v2 with
    | none => .error "ValueError"
    | some v =>
      .ok (dictInsert results (normalize_name ⟨cn⟩)
            { name := ⟨cn⟩, ns_per_op := convert_to_ns v ⟨t.u2⟩, source := "rust" },
          none)
  | _, _ => .ok (results, cur)

/-- The `simple_match` branch (lines 128–140); note it does not touch
`current_name` and stores the raw group 1 (no slash replacement). -/
def simpleStage (results : Dict) (cs : List Char) : Except String Dict :=
  match matchSimple cs with
  | none => .ok results
  | some (nm, v, u) =>
    match floatOfTok v with
    | none => .error "ValueError"
    | some x =>
      .ok (dictInsert results (normalize_name ⟨nm⟩)
        { name := ⟨nm⟩, ns_per_op := convert_to_ns x ⟨u⟩, source := "rust" })

/-- One iteration of the Rust loop (lines 100–140): name pattern first,
then the full interval pattern, then the simple pattern, in the source
order. -/
def rustLineStep (st : RState) (line : String) : Except String RState :=
  let cs := pyStrip line.data
  let cur1 : Option (List Char) :=
    match parseRustName cs with
    | some nm => some (slashToUnderscore nm)
    | none => st.current_name
  match timeStage st.results cur1 cs with
  | .error e => .error e
  | .ok (res2, cur2) =>
    match simpleStage res2 cs with
    | .error e => .error e
    | .ok res3 => .ok ⟨res3, cur2⟩

/-- `parse_rust_bench` (lines 79–142) on the list of lines of the file. -/
def parse_rust_bench (lines : List String) : Except String Dict :=
  (lines.foldl (fun (acc : Except String RState) l => acc.bind (fun st => rustLineStep st l))
    (.ok ⟨[], none⟩)).map (fun st => st.results)

example : parseRustName "render_foo time: [246.0 ns 246.0 ns 246.0 ns]".data =
    some "render_foo".data := by decide
example : parseRustName "lipgloss/rendering".data = some "lipgloss/rendering".data := by decide
example : parseRustName "time: [5.0 ns 6.0 ns 7.0 ns]".data = none := by decide
example : (timeSearch "render_foo time: [246.0 ns 246.5 ns 247.0 ns]".data).map
    (fun t => (t.v2, t.u2)) = some ("246.5".data, "ns".data) := by decide
example : timeSearch "foo time: [1.0 ns]".data = none := by decide
example : (matchSimple "foo time: [1.0 ns]".data) = some ("foo".data, "1.0".data, "ns".data) := by
  decide
example : matchSimple "time: [5.0 ns 6.0 ns 7.0 ns]".data = none := by decide

/-! ### `compare_results` (lines 161–202)

`sorted(set(go) | set(rust))` sorts the union of the key sets by Python's
string order, which is code-point lexicographic.  The embedding takes the
keys in file order, deduplicates (`set` semantics: membership only — the
result is sorted anyway), and sorts with a structural insertion sort under
the code-point lexicographic order `pyStrLe`: on a duplicate-free list a
total order has exactly one sorted arrangement, so this is extensionally
the same list `sorted` produces. -/

/-- Code-point lexicographic `≤` on character lists (Python string
comparison). -/
def charListLe : List Char → List Char → Bool
  | [], _ => true
  | _ :: _, [] => false
  | a :: as, b :: bs => if a < b then true else if b < a then false else charListLe as bs

/-- Python's `≤` on strings. -/
def pyStrLe (s t : String) : Bool := charListLe s.data t.data

theorem charListLe_total (as bs : List Char) : charListLe as bs = true ∨ charListLe bs as = true := by
  induction as generalizing bs with
  | nil => left; rfl
  | cons a as ih =>
    cases bs with
    | nil => right; rfl
    | cons b bs =>
      rcases lt_trichotomy a b with h | h | h
      · left; simp [charListLe, h]
      · subst h
        rcases ih bs with h' | h'
        · left; simp [charListLe, lt_irrefl, h']
        · right; simp [charListLe, lt_irrefl, h']
      · right; simp [charListLe, h]

theorem charListLe_trans {as bs cs : List Char} (h1 : charListLe as bs = true)
    (h2 : charListLe bs cs = true) : charListLe as cs = true := by
  induction as generalizing bs cs with
  | nil => rfl
  | cons a as ih =>
    cases bs with
    | nil => simp [charListLe] at h1
    | cons b bs =>
      cases cs with
      | nil => simp [charListLe] at h2
      | cons c cs =>
        rcases lt_trichotomy a b with hab | hab | hab
        · rcases lt_trichotomy b c with hbc | hbc | hbc
          · simp [charListLe, lt_trans hab hbc]
          · subst hbc; simp [charListLe, hab]
          · simp [charListLe, hbc, not_lt_of_gt hbc] at h2
        · subst hab
          rcases lt_trichotomy a c with hbc | hbc | hbc
          · simp [charListLe, hbc]
          · subst hbc
            simp only [charListLe, lt_irrefl, if_false] at h1 h2 ⊢
            exact ih h1 h2
          · simp [charListLe, hbc, not_lt_of_gt hbc] at h2
        · simp [charListLe, hab, not_lt_of_gt hab] at h1

instance : IsTotal String (fun a b => pyStrLe a b = true) :=
  ⟨fun a b => charListLe_total a.data b.data⟩

instance : IsTrans String (fun a b => pyStrLe a b = true) :=
  ⟨fun _ _ _ h1 h2 => charListLe_trans h1 h2⟩

/-- `all_names = sorted(set(go_results.keys()) | set(rust_results.keys()))`
(lines 166–168). -/
def all_names (go_results rust_results : Dict) : List String :=
  List.insertionSort (fun a b => pyStrLe a b = true)
    ((go_results.map Prod.fst ++ rust_results.map Prod.fst).dedup)

/-- One output row of `compare_results` (the `comparison` dict, lines
172–180). -/
structure ComparisonRow where
  normalized_name : String
  go_name : Option String
  rust_name : Option String
  go_ns : Option ℚ
  rust_ns : Option ℚ
  ratio : Option ℚ
  status : String
deriving DecidableEq, Repr

/-- The nested threshold chain of lines 187–194. -/
def classify (ratio : ℚ) : String :=
  if ratio ≤ 1 then "excellent"
  else if ratio ≤ 2 then "good"
  else if ratio ≤ 5 then "acceptable"
  else "needs_work"

/-- Loop body of `compare_results` for one normalized name (lines
169–200). -/
def mkComparison (norm_name : String) (go_res rust_res : Option BenchResult) : ComparisonRow :=
  let base : ComparisonRow :=
    { normalized_name := norm_name
      go_name := go_res.map (fun g => g.name)
      rust_name := rust_res.map (fun r => r.name)
      go_ns := go_res.map (fun g => g.ns_per_op)
      rust_ns := rust_res.map (fun r => r.ns_per_op)
      ratio := none
      status := "missing_both" }
  match go_res, rust_res with
  | some g, some r =>
    if 0 < g.ns_per_op then
      { base with
        ratio := some (r.ns_per_op / g.ns_per_op)
        status := classify (r.ns_per_op / g.ns_per_op) }
    else base
  | some _, none => { base with status := "missing_rust" }
  | none, some _ => { base with status := "missing_go" }
  | none, none => base

/-- `compare_results` (lines 161–202). -/
def compare_results (go_results rust_results : Dict) : List ComparisonRow :=
  (all_names go_results rust_results).map
    (fun n => mkComparison n (dictGet go_results n) (dictGet rust_results n))

/-- The counting loop of `print_table` (lines 241–260): accumulates
`(matched_count, excellent_count, good_count)`; the `elif` chain only
reaches the `good` bucket when the status is not `excellent`. -/
def tableCounts (comparisons : List ComparisonRow) : Nat × Nat × Nat :=
  comparisons.foldl
    (fun acc comp =>
      if comp.ratio.isSome then
        if comp.status == "excellent" then (acc.1 + 1, acc.2.1 + 1, acc.2.2)
        else if comp.status == "excellent" || comp.status == "good" then
          (acc.1 + 1, acc.2.1, acc.2.2 + 1)
        else (acc.1 + 1, acc.2.1, acc.2.2)
      else acc)
    (0, 0, 0)

/-- The JSON summary's `good` counter (line 308): counts status in
`('excellent', 'good')` over all rows, unlike the table loop. -/
def jsonGoodCount (comparisons : List ComparisonRow) : Nat :=
  (comparisons.filter (fun c => c.status == "excellent" || c.status == "good")).length

example : all_names [("renderfoo", ⟨"x", 1, none, none, "rust"⟩)]
    [("foo", ⟨"y", 2, none, none, "go"⟩)] = ["foo", "renderfoo"] := by decide

/-! ### Structural lemmas about `compare_results` -/

/-- Every branch of the loop body keeps the normalized name it was given. -/
theorem mkComparison_name (n : String) (g r : Option BenchResult) :
    (mkComparison n g r).normalized_name = n := by
  unfold mkComparison
  cases g <;> cases r <;> simp only []
  split <;> rfl

/-- The row names are exactly `all_names` (in order). -/
theorem compare_results_map_name (go rust : Dict) :
    (compare_results go rust).map (fun c => c.normalized_name) = all_names go rust := by
  unfold compare_results
  rw [List.map_map]
  have : ((fun c : ComparisonRow => c.normalized_name) ∘
      fun n => mkComparison n (dictGet go n) (dictGet rust n)) = id := by
    funext n
    exact mkComparison_name n _ _
  rw [this, List.map_id]

theorem mem_all_names_iff (go rust : Dict) (k : String) :
    k ∈ all_names go rust ↔ k ∈ go.map Prod.fst ∨ k ∈ rust.map Prod.fst := by
  unfold all_names
  rw [(List.perm_insertionSort _ _).mem_iff, List.mem_dedup, List.mem_append]

theorem all_names_nodup (go rust : Dict) : (all_names go rust).Nodup :=
  (List.perm_insertionSort _ _).nodup_iff.mpr (List.nodup_dedup _)

theorem all_names_sorted (go rust : Dict) :
    (all_names go rust).Sorted (fun a b => pyStrLe a b = true) :=
  List.sorted_insertionSort _ _

/-- Each row of the output is the loop body applied to its own name and
the two lookups for it. -/
theorem compare_results_row_eq (go rust : Dict) {row : ComparisonRow}
    (h : row ∈ compare_results go rust) :
    row = mkComparison row.normalized_name (dictGet go row.normalized_name)
      (dictGet rust row.normalized_name) := by
  obtain ⟨n, _, hrow⟩ := List.mem_map.mp h
  have hn := mkComparison_name n (dictGet go n) (dictGet rust n)
  rw [← hrow, hn]

/-- Every key of either input yields a row carrying it as name. -/
theorem compare_results_mem_of_key (go rust : Dict) (k : String)
    (h : (dictGet go k).isSome ∨ (dictGet rust k).isSome) :
    ∃ row ∈ compare_results go rust, row.normalized_name = k := by
  refine ⟨mkComparison k (dictGet go k) (dictGet rust k), ?_, mkComparison_name _ _ _⟩
  apply List.mem_map.mpr
  refine ⟨k, ?_, rfl⟩
  rw [mem_all_names_iff]
  rcases h with h | h
  · exact Or.inl ((dictGet_isSome_iff go k).mp h)
  · exact Or.inr ((dictGet_isSome_iff rust k).mp h)

/-- Definitional unfolding of the loop body in the both-present case. -/
theorem mkComparison_both_eq (n : String) (g r : BenchResult) :
    mkComparison n (some g) (some r) =
      if 0 < g.ns_per_op then
        { normalized_name := n
          go_name := some g.name
          rust_name := some r.name
          go_ns := some g.ns_per_op
          rust_ns := some r.ns_per_op
          ratio := some (r.ns_per_op / g.ns_per_op)
          status := classify (r.ns_per_op / g.ns_per_op) }
      else
        { normalized_name := n
          go_name := some g.name
          rust_name := some r.name
          go_ns := some g.ns_per_op
          rust_ns := some r.ns_per_op
          ratio := none
          status := "missing_both" } := rfl

/-- Evaluation of the loop body when both records are present and the Go
timing is positive. -/
theorem mkComparison_both_pos (n : String) (g r : BenchResult) (hpos : 0 < g.ns_per_op) :
    mkComparison n (some g) (some r) =
      { normalized_name := n
        go_name := some g.name
        rust_name := some r.name
        go_ns := some g.ns_per_op
        rust_ns := some r.ns_per_op
        ratio := some (r.ns_per_op / g.ns_per_op)
        status := classify (r.ns_per_op / g.ns_per_op) } := by
  rw [mkComparison_both_eq, if_pos hpos]

/-- Evaluation of the loop body when both records are present and the Go
timing is zero or negative: the division-by-zero guard leaves ratio and
status untouched. -/
theorem mkComparison_both_nonpos (n : String) (g r : BenchResult) (hnp : g.ns_per_op ≤ 0) :
    mkComparison n (some g) (some r) =
      { normalized_name := n
        go_name := some g.name
        rust_name := some r.name
        go_ns := some g.ns_per_op
        rust_ns := some r.ns_per_op
        ratio := none
        status := "missing_both" } := by
  rw [mkComparison_both_eq, if_neg (not_lt.mpr hnp)]

theorem classify_excellent {q : ℚ} (h : q ≤ 1) : classify q = "excellent" := by
  unfold classify
  rw [if_pos h]

theorem classify_good {q : ℚ} (h1 : 1 < q) (h2 : q ≤ 2) : classify q = "good" := by
  unfold classify
  rw [if_neg (not_le.mpr h1), if_pos h2]

theorem classify_acceptable {q : ℚ} (h1 : 2 < q) (h2 : q ≤ 5) : classify q = "acceptable" := by
  unfold classify
  have h0 : ¬q ≤ 1 := not_le.mpr (lt_trans one_lt_two h1)
  rw [if_neg h0, if_neg (not_le.mpr h1), if_pos h2]

theorem classify_needs_work {q : ℚ} (h : 5 < q) : classify q = "needs_work" := by
  unfold classify
  have h1 : ¬q ≤ 1 := not_le.mpr (lt_trans (by norm_num) h)
  have h2 : ¬q ≤ 2 := not_le.mpr (lt_trans (by norm_num) h)
  rw [if_neg h1, if_neg h2, if_neg (not_le.mpr h)]

/-- C1: for every normalized name present in both mappings with positive
Go timing, the row's ratio is `rust.ns / go.ns` and the status follows the
fixed thresholds, each boundary (1, 2, 5) belonging to the faster
bucket. -/
theorem compare_ratio_thresholds (go rust : Dict) (k : String) (g r : BenchResult)
    (hg : dictGet go k = some g) (hr : dictGet rust k = some r)
    (hpos : 0 < g.ns_per_op) :
    (∃ row ∈ compare_results go rust, row.normalized_name = k) ∧
    ∀ row ∈ compare_results go rust, row.normalized_name = k →
      row.ratio = some (r.ns_per_op / g.ns_per_op) ∧
      (r.ns_per_op / g.ns_per_op ≤ 1 → row.status = "excellent") ∧
      (1 < r.ns_per_op / g.ns_per_op → r.ns_per_op / g.ns_per_op ≤ 2 →
        row.status = "good") ∧
      (2 < r.ns_per_op / g.ns_per_op → r.ns_per_op / g.ns_per_op ≤ 5 →
        row.status = "acceptable") ∧
      (5 < r.ns_per_op / g.ns_per_op → row.status = "needs_work") := by
  constructor
  · exact compare_results_mem_of_key go rust k (Or.inl (hg ▸ rfl))
  · intro row hrow hname
    have he := compare_results_row_eq go rust hrow
    rw [hname, hg, hr, mkComparison_both_pos k g r hpos] at he
    subst he
    refine ⟨rfl, ?_, ?_, ?_, ?_⟩
    · exact fun h => classify_excellent h
    · exact fun h1 h2 => classify_good h1 h2
    · exact fun h1 h2 => classify_acceptable h1 h2
    · exact fun h => classify_needs_work h

def wGoRec : BenchResult := { name := "BenchmarkA", ns_per_op := 100, source := "go" }

def wRustRec : BenchResult := { name := "a", ns_per_op := 200, source := "rust" }

def wGoDict : Dict := [("a", wGoRec)]

def wRustDict : Dict := [("a", wRustRec)]

/-- C1 witness: a concrete matched pair with timings 100 and 200 gives
ratio exactly 2 and status `good`. -/
theorem compare_ratio_thresholds_witness :
    (mkComparison "a" (dictGet wGoDict "a") (dictGet wRustDict "a")).ratio = some 2 ∧
    (mkComparison "a" (dictGet wGoDict "a") (dictGet wRustDict "a")).status = "good" := by
  have h := compare_ratio_thresholds wGoDict wRustDict "a" wGoRec wRustRec rfl rfl
    (by norm_num [wGoRec])
  have hmem : mkComparison "a" (dictGet wGoDict "a") (dictGet wRustDict "a") ∈
      compare_results wGoDict wRustDict := by
    rw [show compare_results wGoDict wRustDict =
      [mkComparison "a" (dictGet wGoDict "a") (dictGet wRustDict "a")] from rfl]
    exact List.mem_singleton_self _
  have h3 := h.2 _ hmem (mkComparison_name _ _ _)
  refine ⟨?_, ?_⟩
  · rw [h3.1]
    norm_num [wGoRec, wRustRec]
  · exact h3.2.2.1 (by norm_num [wGoRec, wRustRec]) (by norm_num [wGoRec, wRustRec])

/-- C5: a name present in both mappings whose Go timing is zero or
negative yields a row with no ratio, the untouched default status
`missing_both`, and both records still attached. -/
theorem compare_zero_guard (go rust : Dict) (k : String) (g r : BenchResult)
    (hg : dictGet go k = some g) (hr : dictGet rust k = some r)
    (hnp : g.ns_per_op ≤ 0) :
    (∃ row ∈ compare_results go rust, row.normalized_name = k) ∧
    ∀ row ∈ compare_results go rust, row.normalized_name = k →
      row.ratio = none ∧ row.status = "missing_both" ∧
      row.go_name = some g.name ∧ row.rust_name = some r.name ∧
      row.go_ns = some g.ns_per_op ∧ row.rust_ns = some r.ns_per_op := by
  constructor
  · exact compare_results_mem_of_key go rust k (Or.inl (hg ▸ rfl))
  · intro row hrow hname
    have he := compare_results_row_eq go rust hrow
    rw [hname, hg, hr, mkComparison_both_nonpos k g r hnp] at he
    subst he
    exact ⟨rfl, rfl, rfl, rfl, rfl, rfl⟩

def w5GoRec : BenchResult := { name := "BenchmarkZ", ns_per_op := 0, source := "go" }

def w5GoDict : Dict := [("z", w5GoRec)]

def w5RustRec : BenchResult := { name := "z", ns_per_op := 7, source := "rust" }

def w5RustDict : Dict := [("z", w5RustRec)]

/-- C5 witness: a concrete pair with Go timing 0 keeps ratio `None`,
status `missing_both`, and both records attached. -/
theorem compare_zero_guard_witness :
    (mkComparison "z" (dictGet w5GoDict "z") (dictGet w5RustDict "z")).ratio = none ∧
    (mkComparison "z" (dictGet w5GoDict "z") (dictGet w5RustDict "z")).status = "missing_both" ∧
    (mkComparison "z" (dictGet w5GoDict "z") (dictGet w5RustDict "z")).go_name =
      some "BenchmarkZ" ∧
    (mkComparison "z" (dictGet w5GoDict "z") (dictGet w5RustDict "z")).rust_ns = some 7 := by
  have h := compare_zero_guard w5GoDict w5RustDict "z" w5GoRec w5RustRec rfl rfl
    (by norm_num [w5GoRec])
  have hmem : mkComparison "z" (dictGet w5GoDict "z") (dictGet w5RustDict "z") ∈
      compare_results w5GoDict w5RustDict := by
    rw [show compare_results w5GoDict w5RustDict =
      [mkComparison "z" (dictGet w5GoDict "z") (dictGet w5RustDict "z")] from rfl]
    exact List.mem_singleton_self _
  have h3 := h.2 _ hmem (mkComparison_name _ _ _)
  exact ⟨h3.1, h3.2.1, h3.2.2.1, h3.2.2.2.2.2⟩

/-- C2: the output has exactly one row per key of the union of the two
key sets, the row count is the union's size, and the rows come in
ascending code-point lexicographic order of the normalized name. -/
theorem compare_union_sorted (go rust : Dict) :
    ((compare_results go rust).map (fun c => c.normalized_name)).Nodup ∧
    ((compare_results go rust).map (fun c => c.normalized_name)).Sorted
      (fun a b => pyStrLe a b = true) ∧
    (compare_results go rust).length =
      ((go.map Prod.fst).toFinset ∪ (rust.map Prod.fst).toFinset).card ∧
    ∀ k : String,
      ((dictGet go k).isSome ∨ (dictGet rust k).isSome) ↔
        ((compare_results go rust).map (fun c => c.normalized_name)).count k = 1 := by
  rw [compare_results_map_name]
  refine ⟨all_names_nodup go rust, all_names_sorted go rust, ?_, ?_⟩
  · have h1 : (compare_results go rust).length = (all_names go rust).length := by
      rw [← compare_results_map_name go rust, List.length_map]
    rw [h1]
    have h2 : (all_names go rust).length =
        ((go.map Prod.fst ++ rust.map Prod.fst).dedup).length :=
      (List.perm_insertionSort _ _).length_eq
    rw [h2, ← List.card_toFinset, List.toFinset_append]
  · intro k
    constructor
    · intro h
      have hk : k ∈ all_names go rust := by
        rw [mem_all_names_iff]
        rcases h with h | h
        · exact Or.inl ((dictGet_isSome_iff go k).mp h)
        · exact Or.inr ((dictGet_isSome_iff rust k).mp h)
      exact List.count_eq_one_of_mem (all_names_nodup go rust) hk
    · intro h
      have hk : k ∈ all_names go rust := by
        have : 0 < (all_names go rust).count k := by omega
        exact List.count_pos_iff.mp this
      rcases (mem_all_names_iff go rust k).mp hk with h' | h'
      · exact Or.inl ((dictGet_isSome_iff go k).mpr h')
      · exact Or.inr ((dictGet_isSome_iff rust k).mpr h')

/-- C2 witness: on the concrete one-key dicts the key is present and its
row name occurs exactly once. -/
theorem compare_union_sorted_witness :
    ((dictGet wGoDict "a").isSome ∨ (dictGet wRustDict "a").isSome) ∧
    ((compare_results wGoDict wRustDict).map (fun c => c.normalized_name)).count "a" = 1 := by
  refine ⟨Or.inl (by rfl), ?_⟩
  exact ((compare_union_sorted wGoDict wRustDict).2.2.2 "a").mp (Or.inl (by rfl))

/-! ### C6: unit conversion -/

/-- Modelled from the spec's unit table (refinement reference): the factor
applied to a lower-cased unit token — nanoseconds 1, microseconds (micro
sign or plain `u` spelling) 1000, milliseconds 1000000, seconds
1000000000, any unrecognized token treated as nanoseconds (factor 1). -/
def specUnitFactor (u : String) : ℚ :=
  if u = "ns" ∨ u = "nanoseconds" then 1
  else if u = "µs" ∨ u = "us" ∨ u = "microseconds" then 1000
  else if u = "ms" ∨ u = "milliseconds" then 1000000
  else if u = "s" ∨ u = "seconds" then 1000000000
  else 1

/-- Lowering a string is idempotent. -/
theorem strLower_idem (s : String) : strLower (strLower s) = strLower s := by
  unfold strLower
  apply congrArg String.mk
  rw [show (String.mk (s.data.map Char.toLower)).data = s.data.map Char.toLower from rfl,
    List.map_map]
  exact List.map_congr_left (fun c _ => charToLower_idem c)

/-- Definitional unfolding of `convert_to_ns`. -/
theorem convert_to_ns_eq (value : ℚ) (unit : String) :
    convert_to_ns value unit =
      if strLower unit = "ns" ∨ strLower unit = "nanoseconds" then value
      else if strLower unit = "µs" ∨ strLower unit = "us" ∨ strLower unit = "microseconds" then
        value * 1000
      else if strLower unit = "ms" ∨ strLower unit = "milliseconds" then value * 1000000
      else if strLower unit = "s" ∨ strLower unit = "seconds" then value * 1000000000
      else value := rfl

/-- C6: `convert_to_ns` is case-insensitive in the unit token and
multiplies the value by the spec's fixed factor for the lower-cased token,
with factor 1 (nanoseconds) as silent fallback for unrecognized tokens. -/
theorem convert_to_ns_spec (value : ℚ) (unit : String) :
    convert_to_ns value unit = value * specUnitFactor (strLower unit) ∧
    convert_to_ns value unit = convert_to_ns value (strLower unit) := by
  constructor
  · rw [convert_to_ns_eq]
    unfold specUnitFactor
    split
    · rw [mul_one]
    · split
      · rfl
      · split
        · rfl
        · split
          · rfl
          · rw [mul_one]
  · rw [convert_to_ns_eq value unit, convert_to_ns_eq value (strLower unit), strLower_idem]

example : convert_to_ns 3 "US" = 3000 := by
  rw [convert_to_ns_eq, show strLower "US" = "us" from by decide]
  rw [if_neg (by decide), if_pos (by decide)]
  norm_num

example : convert_to_ns 3 "µs" = 3000 := by
  rw [convert_to_ns_eq, show strLower "µs" = "µs" from by decide]
  rw [if_neg (by decide), if_pos (by decide)]
  norm_num

example : convert_to_ns 3 "fortnights" = 3 := by
  rw [convert_to_ns_eq, show strLower "fortnights" = "fortnights" from by decide]
  rw [if_neg (by decide), if_neg (by decide), if_neg (by decide), if_neg (by decide)]

/-! ### C3: idempotence of `normalize_name` -/

/-- Characters of a list-prefix are members. -/
theorem mem_of_isPrefixOf {l₁ l₂ : List Char} (h : l₁.isPrefixOf l₂ = true) :
    ∀ c ∈ l₁, c ∈ l₂ := by
  induction l₁ generalizing l₂ with
  | nil => intro c hc; simp at hc
  | cons a as ih =>
    cases l₂ with
    | nil => simp [List.isPrefixOf] at h
    | cons b bs =>
      simp only [List.isPrefixOf, Bool.and_eq_true, beq_iff_eq] at h
      intro c hc
      rcases List.mem_cons.mp hc with hc | hc
      · exact List.mem_cons.mpr (Or.inl (hc.trans h.1))
      · exact List.mem_cons.mpr (Or.inr (ih h.2 c hc))

/-- Stripping a trailing `-<digits>` group only removes characters. -/
theorem stripTrailingDashDigits_subset (s : List Char) :
    ∀ c ∈ stripTrailingDashDigits s, c ∈ s := by
  intro c hc
  simp only [stripTrailingDashDigits] at hc
  split at hc
  · rw [List.mem_reverse] at hc
    have := List.drop_subset _ _ hc
    rwa [List.mem_reverse] at this
  · exact hc

/-- Every character of a normalized name is the ASCII lowering of some
character that is neither `_` nor `/`. -/
theorem mem_normChars (l : List Char) (c : Char) (hc : c ∈ normChars l) :
    ∃ c', c = c'.toLower ∧ c' ≠ '_' ∧ c' ≠ '/' := by
  unfold normChars at hc
  have hc2 := stripTrailingDashDigits_subset _ c hc
  obtain ⟨c', hc', hlc⟩ := List.mem_map.mp hc2
  have h2 := List.mem_filter.mp hc'
  have h3 := List.mem_filter.mp h2.1
  exact ⟨c', hlc.symm, bne_iff_ne.mp h3.2, bne_iff_ne.mp h2.2⟩

theorem normChars_not_mem_B (l : List Char) : 'B' ∉ normChars l := by
  intro h
  obtain ⟨c', hc', -, -⟩ := mem_normChars l 'B' h
  exact charToLower_ne_B c' hc'.symm

theorem normChars_not_mem_underscore (l : List Char) : '_' ∉ normChars l := by
  intro h
  obtain ⟨c', hc', hu, -⟩ := mem_normChars l '_' h
  exact charToLower_ne_underscore c' hu hc'.symm

theorem normChars_not_mem_slash (l : List Char) : '/' ∉ normChars l := by
  intro h
  obtain ⟨c', hc', -, hs⟩ := mem_normChars l '/' h
  exact charToLower_ne_slash c' hs hc'.symm

theorem normChars_lower_fixed (l : List Char) : ∀ c ∈ normChars l, c.toLower = c := by
  intro c hc
  obtain ⟨c', hc', -, -⟩ := mem_normChars l c hc
  rw [hc', charToLower_idem]

/-- On a normalized name without a trailing `-<digits>` group, every stage
of `normalize_name` is the identity. -/
theorem normChars_normChars (l : List Char)
    (h : stripTrailingDashDigits (normChars l) = normChars l) :
    normChars (normChars l) = normChars l := by
  have h1 : stripPrefixSub "Benchmark".data (normChars l) = normChars l := by
    unfold stripPrefixSub
    rw [if_neg]
    intro hp
    exact normChars_not_mem_B l (mem_of_isPrefixOf hp 'B' (by decide))
  have h2 : stripPrefixSub "bench_".data (normChars l) = normChars l := by
    unfold stripPrefixSub
    rw [if_neg]
    intro hp
    exact normChars_not_mem_underscore l (mem_of_isPrefixOf hp '_' (by decide))
  have h3 : (normChars l).filter (fun c => c != '_') = normChars l :=
    List.filter_eq_self.mpr (fun a ha =>
      bne_iff_ne.mpr (fun he => normChars_not_mem_underscore l (he ▸ ha)))
  have h4 : (normChars l).filter (fun c => c != '/') = normChars l :=
    List.filter_eq_self.mpr (fun a ha =>
      bne_iff_ne.mpr (fun he => normChars_not_mem_slash l (he ▸ ha)))
  have h5 : (normChars l).map Char.toLower = normChars l := by
    rw [show normChars l = (normChars l).map id from (List.map_id _).symm]
    rw [List.map_map]
    exact List.map_congr_left (fun c hc => by
      simp only [Function.comp, id]
      exact normChars_lower_fixed l c (by simpa using hc))
  conv_lhs => rw [normChars]
  rw [h1, h2, h3, h4, h5, h]

/-- C3 counterexample: `normalize_name` is not idempotent — the trailing
`-\d+` substitution removes only the last dash-digit group, so `a-1-2`
normalizes to `a-1`, which normalizes again to `a`. -/
theorem normalize_name_not_idempotent :
    normalize_name (normalize_name "a-1-2") ≠ normalize_name "a-1-2" := by decide

/-- C3 amended: `normalize_name` is idempotent on every string whose
normalized form does not end in `-` followed by digits (equivalently, on
which the trailing-group substitution is the identity). -/
theorem normalize_name_idem_of_no_trailing (s : String)
    (h : stripTrailingDashDigits (normalize_name s).data = (normalize_name s).data) :
    normalize_name (normalize_name s) = normalize_name s := by
  unfold normalize_name
  exact congrArg String.mk (normChars_normChars s.data h)

/-- C3 amended witness at a concrete input. -/
theorem normalize_name_idem_witness :
    stripTrailingDashDigits (normalize_name "Benchmark_Foo-8").data =
      (normalize_name "Benchmark_Foo-8").data ∧
    normalize_name (normalize_name "Benchmark_Foo-8") = normalize_name "Benchmark_Foo-8" :=
  ⟨by decide, normalize_name_idem_of_no_trailing "Benchmark_Foo-8" (by decide)⟩

/-! ### C4: totality of format-A parsing -/

/-- `True` exactly on the non-raising outcome. -/
def exceptOk : Except String Dict → Bool
  | .ok _ => true
  | .error _ => false

/-- C4 counterexample: the line `BenchmarkX 1 1.2.3 ns/op` matches the
full pattern (its `[\d.]+` group is `1.2.3`), and `float('1.2.3')` raises
`ValueError`, so `parse_go_bench` does raise on some input. -/
theorem parse_go_bench_raises : parse_go_bench ["BenchmarkX 1 1.2.3 ns/op"] =
    .error "ValueError" := rfl

/-- Fold helper: from an `.ok` accumulator, the parse stays `.ok` as long
as every remaining matching line carries a convertible ns/op token. -/
theorem parse_go_foldl_ok (lines : List String) : ∀ d : Dict,
    (∀ l ∈ lines, ((parseGoLine (pyStrip l.data)).all
        fun m => (floatOfTok m.nsTok).isSome) = true) →
    exceptOk (lines.foldl (fun acc line => acc.bind (fun d => goLineStep d line))
      (.ok d)) = true := by
  induction lines with
  | nil => intro d _; rfl
  | cons l ls ih =>
    intro d h
    have hl := h l (List.mem_cons_self l ls)
    have hls : ∀ l' ∈ ls, ((parseGoLine (pyStrip l'.data)).all
        fun m => (floatOfTok m.nsTok).isSome) = true :=
      fun l' hl' => h l' (List.mem_cons_of_mem l hl')
    rw [List.foldl_cons]
    have hstep : ∃ d', ((Except.ok d).bind fun d => goLineStep d l) = Except.ok d' := by
      rw [show ((Except.ok d).bind fun d => goLineStep d l) = goLineStep d l from rfl]
      unfold goLineStep
      cases hgo : parseGoLine (pyStrip l.data) with
      | none => exact ⟨d, rfl⟩
      | some m =>
        rw [hgo, Option.all_some] at hl
        cases hf : floatOfTok m.nsTok with
        | none => rw [hf] at hl; simp at hl
        | some ns =>
          refine ⟨dictInsert d (normalize_name ⟨m.name⟩)
            { name := "Benchmark" ++ String.mk m.name
              ns_per_op := ns
              bytes_per_op := m.bytesTok.map (fun t => (digitsToNat t : Int))
              allocs_per_op := m.allocsTok.map (fun t => (digitsToNat t : Int))
              source := "go" }, ?_⟩
          simp only [hf]
    obtain ⟨d', hd'⟩ := hstep
    rw [hd']
    exact ih d' hls

/-- C4 amended: format-A parsing raises exactly through the `float`
conversion — on any input whose matching lines all carry a well-formed
ns/op token (at least one digit, at most one dot) it completes without
error, and a line that does not match the pattern is silently skipped,
leaving the accumulated mapping unchanged. -/
theorem parse_go_bench_total_amended :
    (∀ lines : List String,
      (∀ l ∈ lines, ((parseGoLine (pyStrip l.data)).all
          fun m => (floatOfTok m.nsTok).isSome) = true) →
      exceptOk (parse_go_bench lines) = true) ∧
    (∀ (d : Dict) (line : String), parseGoLine (pyStrip line.data) = none →
      goLineStep d line = .ok d) := by
  constructor
  · intro lines h
    exact parse_go_foldl_ok lines [] h
  · intro d line h
    unfold goLineStep
    rw [h]

/-- C4 amended witness: a well-formed file parses without error, and a
non-matching line is skipped. -/
theorem parse_go_bench_total_witness :
    exceptOk (parse_go_bench ["BenchmarkA 17 2.5 ns/op", "junk line"]) = true ∧
    goLineStep [] "junk line" = .ok [] :=
  ⟨parse_go_bench_total_amended.1 ["BenchmarkA 17 2.5 ns/op", "junk line"] (by decide),
   parse_go_bench_total_amended.2 [] "junk line" (by decide)⟩

/-! ### C7: the concrete two-line scenario -/

def c7GoLine : String := "BenchmarkFoo-8    1000000    123.0 ns/op    16 B/op    1 allocs/op"

def c7RustLine : String := "render_foo time: [246.0 ns 246.0 ns 246.0 ns]"

/-- The comparison rows the pipeline produces for the scenario's two
files. -/
def c7Rows : List ComparisonRow :=
  match parse_go_bench [c7GoLine], parse_rust_bench [c7RustLine] with
  | .ok g, .ok r => compare_results g r
  | _, _ => []

/-- C7 counterexample: on these inputs there is no matched row at all —
the Go key normalizes to `foo` but the Rust key to `renderfoo`. -/
theorem c7_no_matched_row : (c7Rows.filter (fun c => c.ratio.isSome)).length = 0 := by decide

/-- C7 amended: the pipeline on these inputs produces exactly two
unmatched rows, `foo` (Go only, `missing_rust`) and `renderfoo` (Rust
only, `missing_go`), neither carrying a ratio. -/
theorem c7_rows_amended :
    c7Rows.map (fun c => (c.normalized_name, c.status, c.ratio)) =
      [("foo", "missing_rust", none), ("renderfoo", "missing_go", none)] := by decide

/-! ### C9: the table summary counters -/

def c9GoRec : BenchResult := { name := "BenchmarkE", ns_per_op := 100, source := "go" }

def c9RustRec : BenchResult := { name := "e", ns_per_op := 100, source := "rust" }

def c9Go : Dict := [("e", c9GoRec)]

def c9Rust : Dict := [("e", c9RustRec)]

/-- C9: on a matched pair with equal timings (ratio exactly 1, status
`excellent`), the table loop counts `(matched, excellent, good) = (1, 1, 0)`
— its `elif status in ('excellent', 'good')` branch is dead for
`excellent` rows — while the number of rows with status `excellent` or
`good` (the count the JSON summary reports as `good`) is 1. -/
theorem print_table_good_count_bug :
    tableCounts (compare_results c9Go c9Rust) = (1, 1, 0) ∧
    jsonGoodCount (compare_results c9Go c9Rust) = 1 ∧
    (compare_results c9Go c9Rust).length = 1 := by
  have hrow : compare_results c9Go c9Rust =
      [{ normalized_name := "e", go_name := some "BenchmarkE", rust_name := some "e",
         go_ns := some 100, rust_ns := some 100, ratio := some 1, status := "excellent" }] := by
    rw [show compare_results c9Go c9Rust =
      [mkComparison "e" (some c9GoRec) (some c9RustRec)] from rfl]
    rw [mkComparison_both_pos "e" c9GoRec c9RustRec (by norm_num [c9GoRec])]
    have h1 : c9RustRec.ns_per_op / c9GoRec.ns_per_op = 1 := by
      norm_num [c9GoRec, c9RustRec]
    rw [h1, classify_excellent le_rfl]
    rfl
  rw [hrow]
  refine ⟨?_, ?_, rfl⟩
  · rfl
  · rfl

/-! ### C10: the pending name across a shorthand line -/

/-- The record shape built by both branches of the Rust parser. -/
def rustRecord (n : String) (q : ℚ) : BenchResult :=
  { name := n, ns_per_op := q, source := "rust" }

/-- C10: a line matching the name pattern and the simple pattern but not
the full interval pattern emits its record yet leaves `current_name` set
(only the full-interval branch clears it, line 125), so a following
standalone interval line — matching neither the name pattern nor the
simple pattern — emits a record attributed to the earlier line's name. -/
theorem rust_pending_shorthand (st : RState) (l1 l2 : String) (nm v u : List Char)
    (t : TripleMatch) (x y : ℚ)
    (h1 : parseRustName (pyStrip l1.data) = some nm)
    (h2 : timeSearch (pyStrip l1.data) = none)
    (h3 : matchSimple (pyStrip l1.data) = some (nm, v, u))
    (h4 : floatOfTok v = some x)
    (h5 : parseRustName (pyStrip l2.data) = none)
    (h6 : timeSearch (pyStrip l2.data) = some t)
    (h7 : matchSimple (pyStrip l2.data) = none)
    (h8 : floatOfTok t.v2 = some y) :
    rustLineStep st l1 =
      .ok ⟨dictInsert st.results (normalize_name ⟨nm⟩)
          (rustRecord ⟨nm⟩ (convert_to_ns x ⟨u⟩)),
        some (slashToUnderscore nm)⟩ ∧
    rustLineStep ⟨dictInsert st.results (normalize_name ⟨nm⟩)
        (rustRecord ⟨nm⟩ (convert_to_ns x ⟨u⟩)), some (slashToUnderscore nm)⟩ l2 =
      .ok ⟨dictInsert (dictInsert st.results (normalize_name ⟨nm⟩)
            (rustRecord ⟨nm⟩ (convert_to_ns x ⟨u⟩)))
          (normalize_name ⟨slashToUnderscore nm⟩)
          (rustRecord ⟨slashToUnderscore nm⟩ (convert_to_ns y ⟨t.u2⟩)), none⟩ ∧
    dictGet (dictInsert (dictInsert st.results (normalize_name ⟨nm⟩)
            (rustRecord ⟨nm⟩ (convert_to_ns x ⟨u⟩)))
          (normalize_name ⟨slashToUnderscore nm⟩)
          (rustRecord ⟨slashToUnderscore nm⟩ (convert_to_ns y ⟨t.u2⟩)))
        (normalize_name ⟨slashToUnderscore nm⟩) =
      some (rustRecord ⟨slashToUnderscore nm⟩ (convert_to_ns y ⟨t.u2⟩)) := by
  refine ⟨?_, ?_, dictGet_dictInsert_self _ _ _⟩
  · simp only [rustLineStep, h1, timeStage, h2, simpleStage, h3, h4, rustRecord]
  · simp only [rustLineStep, h5, timeStage, h6, simpleStage, h7, h8, rustRecord]

/-- C10 witness: the shorthand line `foo time: [1.0 ns]` followed by the
standalone interval `time: [5.0 ns 6.0 ns 7.0 ns]` attributes the interval's
median to `foo`. -/
theorem rust_pending_shorthand_witness :
    rustLineStep ⟨[], none⟩ "foo time: [1.0 ns]" =
      .ok ⟨dictInsert ([] : Dict) (normalize_name ⟨"foo".data⟩)
          (rustRecord ⟨"foo".data⟩ (convert_to_ns 1 ⟨"ns".data⟩)),
        some (slashToUnderscore "foo".data)⟩ ∧
    dictGet (dictInsert (dictInsert ([] : Dict) (normalize_name ⟨"foo".data⟩)
            (rustRecord ⟨"foo".data⟩ (convert_to_ns 1 ⟨"ns".data⟩)))
          (normalize_name ⟨slashToUnderscore "foo".data⟩)
          (rustRecord ⟨slashToUnderscore "foo".data⟩ (convert_to_ns 6 ⟨"ns".data⟩)))
        (normalize_name ⟨slashToUnderscore "foo".data⟩) =
      some (rustRecord ⟨slashToUnderscore "foo".data⟩ (convert_to_ns 6 ⟨"ns".data⟩)) := by
  have d1 : digitsToNat ['1'] = 1 := by decide
  have d6 : digitsToNat ['6'] = 6 := by decide
  have d0 : digitsToNat ['0'] = 0 := by decide
  have hx : floatOfTok "1.0".data = some 1 := by
    simp +decide [floatOfTok]
    norm_num [d1, d0]
  have hy : floatOfTok "6.0".data = some 6 := by
    simp +decide [floatOfTok]
    norm_num [d6, d0]
  have h := rust_pending_shorthand ⟨[], none⟩ "foo time: [1.0 ns]"
    "time: [5.0 ns 6.0 ns 7.0 ns]" "foo".data "1.0".data "ns".data
    ⟨"5.0".data, "ns".data, "6.0".data, "ns".data, "7.0".data, "ns".data⟩ 1 6
    (by decide) (by decide) (by decide) hx (by decide) (by decide) (by decide) hy
  exact ⟨h.1, h.2.2⟩

/-! ### C8: what `display_name` holds -/

/-- The names attached to the records a Go file parses to (paired with
their normalized keys). -/
def goNamesOf (lines : List String) : List (String × String) :=
  match parse_go_bench lines with
  | .ok d => d.map (fun p => (p.1, p.2.name))
  | .error _ => []

/-- C8 counterexample: the line's own name token is `BenchmarkFoo-8`, but
the stored `display_name` is `BenchmarkFoo` — the `-N` suffix is consumed
outside group 1 and never stored. -/
theorem display_name_counterexample :
    goNamesOf ["BenchmarkFoo-8 100 5.0 ns/op"] = [("foo", "BenchmarkFoo")] ∧
    ("BenchmarkFoo" : String) ≠ "BenchmarkFoo-8" := by decide

/-- A prefix plus the remainder reassembles the list. -/
theorem append_drop_of_isPrefixOf {l₁ l₂ : List Char} (h : l₁.isPrefixOf l₂ = true) :
    l₁ ++ l₂.drop l₁.length = l₂ := by
  induction l₁ generalizing l₂ with
  | nil => rfl
  | cons a as ih =>
    cases l₂ with
    | nil => simp [List.isPrefixOf] at h
    | cons b bs =>
      simp only [List.isPrefixOf, Bool.and_eq_true, beq_iff_eq] at h
      simp only [List.cons_append, List.length_cons, List.drop_succ_cons, h.1,
        List.cons.injEq, true_and]
      exact ih h.2

/-- `splitGoNameAux` returns a prefix of its input; the removed suffix is
empty or a `-<digits>` group. -/
theorem splitGoNameAux_append (rem : List Char) : ∀ acc : List Char,
    ∃ suf, splitGoNameAux acc rem ++ suf = acc.reverse ++ rem ∧
      (suf = [] ∨ isDashDigits suf = true) := by
  induction rem with
  | nil =>
    intro acc
    exact ⟨[], by simp [splitGoNameAux], Or.inl rfl⟩
  | cons c rest ih =>
    intro acc
    by_cases hd : isDashDigits (c :: rest) = true
    · refine ⟨c :: rest, ?_, Or.inr hd⟩
      simp [splitGoNameAux, hd]
    · obtain ⟨suf, hsuf, hor⟩ := ih (c :: acc)
      refine ⟨suf, ?_, hor⟩
      rw [show splitGoNameAux acc (c :: rest) = splitGoNameAux (c :: acc) rest by
        simp [splitGoNameAux, hd]]
      rw [hsuf]
      simp

/-- Group 1 plus the consumed optional suffix is the whole name token. -/
theorem splitGoName_append (T : List Char) :
    ∃ suf, splitGoName T ++ suf = T ∧ (suf = [] ∨ isDashDigits suf = true) := by
  cases T with
  | nil => exact ⟨[], rfl, Or.inl rfl⟩
  | cons c rest =>
    obtain ⟨suf, hsuf, hor⟩ := splitGoNameAux_append rest [c]
    exact ⟨suf, by simpa [splitGoName] using hsuf, hor⟩

/-- `takeWhile` runs through the all-nonspace literal `Benchmark`. -/
theorem takeWhile_benchmark_append (r : List Char) :
    ("Benchmark".data ++ r).takeWhile isNonSpace = "Benchmark".data ++ r.takeWhile isNonSpace := by
  rw [show "Benchmark".data = ['B', 'e', 'n', 'c', 'h', 'm', 'a', 'r', 'k'] from rfl]
  simp +decide [List.takeWhile_cons, isNonSpace]

/-- Group 1 of the Go pattern is the line's name token minus an optional
trailing `-<digits>` suffix. -/
theorem parseGoLine_name (cs : List Char) (m : GoMatch) (h : parseGoLine cs = some m) :
    ∃ suf, "Benchmark".data ++ m.name ++ suf = cs.takeWhile isNonSpace ∧
      (suf = [] ∨ isDashDigits suf = true) := by
  cases hpre : dropLiteral "Benchmark".data cs with
  | none => simp [parseGoLine, hpre] at h
  | some r1 =>
    simp only [parseGoLine, hpre] at h
    have hname : m.name = splitGoName (r1.takeWhile isNonSpace) := by
      repeat' (split at h <;> try simp at h)
      obtain ⟨-, -, -, -, h⟩ := h
      rw [← h]
    unfold dropLiteral at hpre
    split at hpre
    · rename_i hpre0
      rw [Option.some.injEq] at hpre
      obtain ⟨suf, hsuf, hor⟩ := splitGoName_append (r1.takeWhile isNonSpace)
      refine ⟨suf, ?_, hor⟩
      rw [hname, List.append_assoc, hsuf, ← hpre, ← takeWhile_benchmark_append,
        append_drop_of_isPrefixOf hpre0]
    · simp at hpre

/-- Both alternatives of the name pattern capture exactly the line's
leading token. -/
theorem parseRustName_token (cs nm : List Char) (h : parseRustName cs = some nm) :
    nm = cs.takeWhile isNonSpace := by
  simp only [parseRustName] at h
  split at h
  · rw [Option.some.injEq] at h
    exact h.symm
  · split at h
    · simp at h
    · split at h
      · rw [Option.some.injEq] at h
        exact h.symm
      · simp at h

/-- The simple pattern captures exactly the line's leading token. -/
theorem matchSimple_token (cs : List Char) (r : List Char × List Char × List Char)
    (h : matchSimple cs = some r) : r.1 = cs.takeWhile isNonSpace := by
  simp only [matchSimple] at h
  repeat' (split at h <;> try simp at h)
  obtain ⟨-, -, -, -, h⟩ := h
  rw [← h]

/-- C8 amended: the stored `display_name` is the source name up to the
parser's canonicalizations — a Go record stores `Benchmark` plus the name
token with the optional trailing `-<digits>` suffix removed (group 1); a
Rust interval record stores the pending name with `/` replaced by `_`; a
Rust shorthand record stores the leading token verbatim — in each case the
captured group is the line's leading token (minus that Go suffix). -/
theorem display_name_amended :
    (∀ cs m, parseGoLine cs = some m →
      ∃ suf, "Benchmark".data ++ m.name ++ suf = cs.takeWhile isNonSpace ∧
        (suf = [] ∨ isDashDigits suf = true)) ∧
    (∀ cs nm, parseRustName cs = some nm → nm = cs.takeWhile isNonSpace) ∧
    (∀ cs r, matchSimple cs = some r → r.1 = cs.takeWhile isNonSpace) :=
  ⟨parseGoLine_name, parseRustName_token, matchSimple_token⟩

/-- C8 amended witness at concrete lines. -/
theorem display_name_amended_witness :
    ("a/b".data : List Char) = "a/b".data.takeWhile isNonSpace ∧
    ("foo".data : List Char) = "foo time: [1.0 ns]".data.takeWhile isNonSpace :=
  ⟨display_name_amended.2.1 "a/b".data "a/b".data (by decide),
   display_name_amended.2.2 "foo time: [1.0 ns]".data ("foo".data, "1.0".data, "ns".data)
     (by decide)⟩
